import Mathlib

/-!
Verification of the cachistry caching reverse proxy.

This file gives a shallow embedding of the cache subsystem (recency index,
byte accounting, eviction), the request handler's revalidation decisions,
the `WWW-Authenticate` challenge parser, path sanitization, and the
extended-attribute reader, and proves or refutes the specified properties.
-/

set_option maxRecDepth 100000

namespace Cachistry

/-! ## Recency index

Embedding of the `files` doubly-linked LRU list (`files.go`, package cache):
the list is represented head-first, so the head of the Lean list is the head
of the Go list (the newest entry) and the last element is the tail (the
oldest entry).  The auxiliary `byPath` map of the Go implementation holds
exactly one node per path, so locating the node for a path corresponds to
finding the first (and only) entry with that path.
-/

/-- An entry of the recency index: `file{path, size}` in files.go. -/
structure FileEntry where
  path : String
  size : Nat
deriving DecidableEq, Repr

/-- Model of `files.InsertOrReplace` (files.go): if the path is present, overwrite the
node's payload and move the node to the head, returning the old entry;
otherwise insert a new head node.  Both cases amount to erasing the unique
node with that path (if any) and consing the new entry at the head.
Returns the new list and `some old` iff `replaced` was true. -/
def filesInsertOrReplace (l : List FileEntry) (f : FileEntry) :
    List FileEntry × Option FileEntry :=
  match l.find? (fun e => e.path == f.path) with
  | some old => (f :: l.eraseP (fun e => e.path == f.path), some old)
  | none => (f :: l, none)

/-- Model of `files.Delete` (files.go): unlink and drop the node for the path if
present; the Bool reports whether it was found. -/
def filesDelete (l : List FileEntry) (p : String) : List FileEntry × Bool :=
  match l.find? (fun e => e.path == p) with
  | some _ => (l.eraseP (fun e => e.path == p), true)
  | none => (l, false)

/-- Model of `files.Range` (files.go): it visits nodes from the tail (oldest) toward the
head (newest); with our head-first representation this is the reversed
list. -/
def filesRangeOrder (l : List FileEntry) : List FileEntry := l.reverse

/-- An operation on the recency index. -/
inductive FilesOp where
  | touch (f : FileEntry)
  | del (p : String)
deriving DecidableEq, Repr

/-- Apply one operation to the index. -/
def applyFilesOp (l : List FileEntry) : FilesOp → List FileEntry
  | .touch f => (filesInsertOrReplace l f).1
  | .del p => (filesDelete l p).1

/-- Run a sequence of operations on an initially empty index. -/
def runFilesOps (ops : List FilesOp) : List FileEntry :=
  ops.foldl applyFilesOp []

/-- The temporal fate of a path after a sequence of operations:
never touched, deleted (and not re-inserted), or live with the (0-based)
position of the last `InsertOrReplace` for it and the entry that operation
inserted. -/
inductive TouchStatus where
  | untouched
  | dead
  | live (i : Nat) (f : FileEntry)
deriving DecidableEq, Repr

/-- Compute the temporal fate of a path directly from the operation
sequence: the last operation mentioning the path decides. -/
def touchStatus : List FilesOp → String → TouchStatus
  | [], _ => .untouched
  | op :: rest, p =>
    match touchStatus rest p with
    | .live i f => .live (i + 1) f
    | .dead => .dead
    | .untouched =>
      match op with
      | .touch f => if f.path == p then .live 0 f else .untouched
      | .del q => if q == p then .dead else .untouched

section RecencyScratch

example : runFilesOps [.touch ⟨"a", 1⟩, .touch ⟨"b", 2⟩, .touch ⟨"c", 3⟩] =
    [⟨"c", 3⟩, ⟨"b", 2⟩, ⟨"a", 1⟩] := by decide

-- re-inserting "b" promotes it to the head and replaces the payload,
-- matching TestFiles_HappyPath in files_test.go
example : filesRangeOrder (runFilesOps
      [.touch ⟨"a", 1⟩, .touch ⟨"b", 2⟩, .touch ⟨"c", 3⟩, .touch ⟨"b", 20⟩]) =
    [⟨"a", 1⟩, ⟨"c", 3⟩, ⟨"b", 20⟩] := by decide

example : touchStatus [.touch ⟨"a", 1⟩, .touch ⟨"b", 2⟩, .del "a"] "a" = .dead := by
  decide

example : touchStatus [.touch ⟨"a", 1⟩, .touch ⟨"b", 2⟩, .del "a", .touch ⟨"a", 7⟩] "a" =
    .live 3 ⟨"a", 7⟩ := by decide

end RecencyScratch

/-! ### Stamped simulation of the recency index

To relate the index's list order to the temporal order of operations we run
the same operations over a list whose entries carry the position of the
operation that inserted them.  Erasing the mirror of the stamps recovers the
implementation's list. -/

/-- One step of the stamped run: identical to `applyFilesOp`, but the
inserted entry is paired with the current operation position `t`. -/
def stampedStep (st : List (FileEntry × Nat)) (t : Nat) : FilesOp → List (FileEntry × Nat)
  | .touch f => (f, t) :: st.eraseP (fun e => e.1.path == f.path)
  | .del p => st.eraseP (fun e => e.1.path == p)

/-- Run operations over a stamped list, counting positions from `t`. -/
def stampedRun : List FilesOp → List (FileEntry × Nat) → Nat → List (FileEntry × Nat)
  | [], st, _ => st
  | op :: rest, st, t => stampedRun rest (stampedStep st t op) (t + 1)

/-- Look up the stamped entry for a path. -/
def findStamped (st : List (FileEntry × Nat)) (p : String) : Option (FileEntry × Nat) :=
  st.find? (fun e => e.1.path == p)

/-- The paths of a stamped list are pairwise distinct. -/
def keysNodup (st : List (FileEntry × Nat)) : Prop :=
  (st.map (fun e => e.1.path)).Nodup

/-- All stamps are below `t` and strictly decrease toward the tail. -/
def stampsGood (st : List (FileEntry × Nat)) (t : Nat) : Prop :=
  (∀ e ∈ st, e.2 < t) ∧ st.Pairwise (fun a b => b.2 < a.2)

theorem insertOrReplace_fst (l : List FileEntry) (f : FileEntry) :
    (filesInsertOrReplace l f).1 = f :: l.eraseP (fun e => e.path == f.path) := by
  unfold filesInsertOrReplace
  cases h : l.find? (fun e => e.path == f.path) with
  | some old => rfl
  | none =>
    have : l.eraseP (fun e => e.path == f.path) = l :=
      List.eraseP_of_forall_not (by
        intro a ha
        have := List.find?_eq_none.mp h a ha
        simpa using this)
    simp [this]

theorem delete_fst (l : List FileEntry) (p : String) :
    (filesDelete l p).1 = l.eraseP (fun e => e.path == p) := by
  unfold filesDelete
  cases h : l.find? (fun e => e.path == p) with
  | some old => rfl
  | none =>
    have : l.eraseP (fun e => e.path == p) = l :=
      List.eraseP_of_forall_not (by
        intro a ha
        have := List.find?_eq_none.mp h a ha
        simpa using this)
    simp [this]

theorem eraseP_map_fst (st : List (FileEntry × Nat)) (q : FileEntry → Bool) :
    (st.eraseP (fun e => q e.1)).map Prod.fst = (st.map Prod.fst).eraseP q := by
  induction st with
  | nil => rfl
  | cons a rest ih =>
    by_cases h : q a.1 <;> simp [List.eraseP_cons, h, ih]

theorem stampedStep_map_fst (st : List (FileEntry × Nat)) (t : Nat) (op : FilesOp) :
    (stampedStep st t op).map Prod.fst = applyFilesOp (st.map Prod.fst) op := by
  cases op with
  | touch f =>
    simp [stampedStep, applyFilesOp, insertOrReplace_fst,
      eraseP_map_fst st (fun e => e.path == f.path)]
  | del p =>
    simp [stampedStep, applyFilesOp, delete_fst, eraseP_map_fst st (fun e => e.path == p)]

theorem stampedRun_map_fst (ops : List FilesOp) :
    ∀ (st : List (FileEntry × Nat)) (t : Nat),
      (stampedRun ops st t).map Prod.fst = ops.foldl applyFilesOp (st.map Prod.fst) := by
  induction ops with
  | nil => intro st t; rfl
  | cons op rest ih =>
    intro st t
    rw [stampedRun, List.foldl_cons, ih, stampedStep_map_fst]

theorem find?_eraseP_of_imp (l : List (FileEntry × Nat)) (q r : FileEntry × Nat → Bool)
    (h : ∀ e, q e = true → r e = false) :
    (l.eraseP q).find? r = l.find? r := by
  induction l with
  | nil => rfl
  | cons a rest ih =>
    by_cases hq : q a
    · have hr := h a hq
      simp [List.eraseP_cons, hq, List.find?_cons, hr]
    · by_cases hr : r a <;> simp [List.eraseP_cons, hq, List.find?_cons, hr, ih]

theorem keysNodup_eraseP (st : List (FileEntry × Nat)) (q : FileEntry × Nat → Bool)
    (h : keysNodup st) : keysNodup (st.eraseP q) := by
  unfold keysNodup at h ⊢
  exact ((List.eraseP_sublist st).map (fun e => e.1.path)).nodup h

theorem not_mem_keys_eraseP (st : List (FileEntry × Nat)) (p : String) (h : keysNodup st) :
    p ∉ (st.eraseP (fun e => e.1.path == p)).map (fun e => e.1.path) := by
  induction st with
  | nil => simp
  | cons a rest ih =>
    rcases List.nodup_cons.mp h with ⟨ha, hrest⟩
    by_cases hq : a.1.path == p
    · have : a.1.path = p := by simpa using hq
      simp only [List.eraseP_cons, hq, cond_true]
      rw [← this]
      exact ha
    · have hne : a.1.path ≠ p := by simpa using hq
      simp only [List.eraseP_cons, hq, cond_false, List.map_cons, List.mem_cons]
      push_neg
      exact ⟨fun hc => hne hc.symm, ih hrest⟩

theorem keysNodup_step (st : List (FileEntry × Nat)) (t : Nat) (op : FilesOp)
    (h : keysNodup st) : keysNodup (stampedStep st t op) := by
  cases op with
  | touch f =>
    refine List.nodup_cons.mpr ⟨?_, keysNodup_eraseP st _ h⟩
    exact not_mem_keys_eraseP st f.path h
  | del p => exact keysNodup_eraseP st _ h

theorem keysNodup_run (ops : List FilesOp) :
    ∀ (st : List (FileEntry × Nat)) (t : Nat), keysNodup st →
      keysNodup (stampedRun ops st t) := by
  induction ops with
  | nil => intro st t h; exact h
  | cons op rest ih =>
    intro st t h
    exact ih _ _ (keysNodup_step st t op h)

theorem stampsGood_step (st : List (FileEntry × Nat)) (t : Nat) (op : FilesOp)
    (h : stampsGood st t) : stampsGood (stampedStep st t op) (t + 1) := by
  obtain ⟨hb, hp⟩ := h
  cases op with
  | touch f =>
    constructor
    · intro e he
      rcases List.mem_cons.mp he with rfl | he'
      · exact Nat.lt_succ_self t
      · exact Nat.lt_succ_of_lt (hb e ((List.eraseP_sublist st).mem he'))
    · refine List.pairwise_cons.mpr ⟨?_, hp.sublist (List.eraseP_sublist st)⟩
      intro e he
      exact hb e ((List.eraseP_sublist st).mem he)
  | del p =>
    constructor
    · intro e he
      exact Nat.lt_succ_of_lt (hb e ((List.eraseP_sublist st).mem he))
    · exact hp.sublist (List.eraseP_sublist st)

theorem stampsGood_run (ops : List FilesOp) :
    ∀ (st : List (FileEntry × Nat)) (t : Nat), stampsGood st t →
      stampsGood (stampedRun ops st t) (t + ops.length) := by
  induction ops with
  | nil => intro st t h; simpa using h
  | cons op rest ih =>
    intro st t h
    have := ih _ (t + 1) (stampsGood_step st t op h)
    rw [stampedRun]
    have harith : t + 1 + rest.length = t + (op :: rest).length := by
      simp [List.length_cons]; omega
    rwa [harith] at this

theorem findStamped_stampedRun (ops : List FilesOp) :
    ∀ (st : List (FileEntry × Nat)) (t : Nat), keysNodup st → ∀ p,
    findStamped (stampedRun ops st t) p =
      (match touchStatus ops p with
       | .live i f => some (f, t + i)
       | .dead => none
       | .untouched => findStamped st p) := by
  induction ops with
  | nil =>
    intro st t _ p
    rfl
  | cons op rest ih =>
    intro st t hnd p
    have hunf : touchStatus (op :: rest) p =
        (match touchStatus rest p with
         | .live i f => .live (i + 1) f
         | .dead => .dead
         | .untouched =>
           match op with
           | .touch f => if f.path == p then .live 0 f else .untouched
           | .del q => if q == p then .dead else .untouched) := rfl
    rw [stampedRun, ih _ _ (keysNodup_step st t op hnd) p, hunf]
    cases hts : touchStatus rest p with
    | live i f =>
      show some (f, t + 1 + i) = some (f, t + (i + 1))
      have h2 : t + 1 + i = t + (i + 1) := by omega
      rw [h2]
    | dead => rfl
    | untouched =>
      show findStamped (stampedStep st t op) p = _
      cases op with
      | touch f =>
        by_cases hfp : f.path == p
        · have hfp' : f.path = p := by simpa using hfp
          simp [findStamped, stampedStep, List.find?_cons, hfp]
        · have h1 : findStamped (stampedStep st t (.touch f)) p = findStamped st p := by
            simp only [findStamped, stampedStep, List.find?_cons, hfp, cond_false]
            exact find?_eraseP_of_imp st _ _ (by
              intro e he
              have he' : e.1.path = f.path := by simpa using he
              have : f.path ≠ p := by simpa using hfp
              simp [he', this])
          rw [h1]
          simp [hfp]
      | del q =>
        by_cases hqp : q == p
        · have hq' : q = p := by simpa using hqp
          have h1 : findStamped (stampedStep st t (.del q)) p = none := by
            simp only [findStamped, stampedStep]
            rw [List.find?_eq_none]
            intro x hx
            subst hq'
            intro hxp
            have hxp' : x.1.path = q := by simpa using hxp
            have := not_mem_keys_eraseP st q hnd
            exact this (List.mem_map.mpr ⟨x, hx, hxp'⟩)
          rw [h1]
          simp [hqp]
        · have h1 : findStamped (stampedStep st t (.del q)) p = findStamped st p := by
            exact find?_eraseP_of_imp st _ _ (by
              intro e he
              have he' : e.1.path = q := by simpa using he
              have : q ≠ p := by simpa using hqp
              simp [he', this])
          rw [h1]
          simp [hqp]

theorem mem_iff_findStamped (st : List (FileEntry × Nat)) (x : FileEntry × Nat)
    (hnd : keysNodup st) : x ∈ st ↔ findStamped st x.1.path = some x := by
  constructor
  · intro hx
    induction st with
    | nil => cases hx
    | cons a rest ih =>
      rcases List.nodup_cons.mp hnd with ⟨ha, hrest⟩
      rcases List.mem_cons.mp hx with rfl | hx'
      · simp [findStamped, List.find?_cons]
      · have hne : a.1.path ≠ x.1.path := by
          intro hc
          have hmem : a.1.path ∈ List.map (fun e => e.1.path) rest := by
            rw [hc]; exact List.mem_map.mpr ⟨x, hx', rfl⟩
          exact ha hmem
        have hbeq : (a.1.path == x.1.path) = false := by simpa using hne
        simp only [findStamped, List.find?_cons, hbeq, cond_false]
        exact ih hrest hx'
  · intro hf
    exact List.mem_of_find?_eq_some hf

theorem status_of_mem (ops : List FilesOp) (x : FileEntry × Nat)
    (hx : x ∈ stampedRun ops [] 0) :
    touchStatus ops x.1.path = .live x.2 x.1 := by
  have hnd0 : keysNodup ([] : List (FileEntry × Nat)) := List.nodup_nil
  have hnd : keysNodup (stampedRun ops [] 0) := keysNodup_run ops [] 0 hnd0
  have hf := (mem_iff_findStamped _ x hnd).mp hx
  rw [findStamped_stampedRun ops [] 0 hnd0 x.1.path] at hf
  cases hts : touchStatus ops x.1.path <;> rw [hts] at hf
  · simp [findStamped] at hf
  · cases hf
  · rename_i i f
    have h1 : f = x.1 ∧ 0 + i = x.2 := by
      have := Option.some.inj hf
      exact ⟨congrArg Prod.fst this, congrArg Prod.snd this⟩
    obtain ⟨rfl, h2⟩ := h1
    congr 1
    omega

theorem runFilesOps_eq_stamped (ops : List FilesOp) :
    runFilesOps ops = (stampedRun ops [] 0).map Prod.fst := by
  rw [stampedRun_map_fst ops [] 0]
  rfl

theorem status_iff_mem_stamped (ops : List FilesOp) (e : FileEntry) (i : Nat) :
    touchStatus ops e.path = .live i e ↔ (e, i) ∈ stampedRun ops [] 0 := by
  have hnd0 : keysNodup ([] : List (FileEntry × Nat)) := List.nodup_nil
  have hnd : keysNodup (stampedRun ops [] 0) := keysNodup_run ops [] 0 hnd0
  constructor
  · intro hst
    have hf := findStamped_stampedRun ops [] 0 hnd0 e.path
    rw [hst] at hf
    exact List.mem_of_find?_eq_some (by simpa using hf)
  · intro hm
    have := status_of_mem ops (e, i) hm
    simpa using this

/-- Claim C5: for every sequence of `InsertOrReplace` and `Delete` operations
applied to an initially empty recency index, `Range` visits exactly the live
entries, each exactly once, ordered from least-recently
inserted-or-replaced (tail) to most-recently inserted-or-replaced (head),
and `InsertOrReplace` always moves the affected entry to the head. -/
theorem claim5_recency_range_order (ops : List FilesOp) :
    (∀ e : FileEntry, e ∈ filesRangeOrder (runFilesOps ops) ↔
        ∃ i, touchStatus ops e.path = .live i e) ∧
    ((filesRangeOrder (runFilesOps ops)).map (fun e => e.path)).Nodup ∧
    (filesRangeOrder (runFilesOps ops)).Pairwise (fun a b =>
        ∃ i j, touchStatus ops a.path = .live i a ∧
          touchStatus ops b.path = .live j b ∧ i < j) ∧
    (∀ f, (runFilesOps (ops ++ [.touch f])).head? = some f) := by
  have hnd0 : keysNodup ([] : List (FileEntry × Nat)) := List.nodup_nil
  have hnd : keysNodup (stampedRun ops [] 0) := keysNodup_run ops [] 0 hnd0
  have hmap := runFilesOps_eq_stamped ops
  refine ⟨?_, ?_, ?_, ?_⟩
  · intro e
    rw [filesRangeOrder, List.mem_reverse, hmap]
    constructor
    · intro he
      rcases List.mem_map.mp he with ⟨x, hx, rfl⟩
      exact ⟨x.2, status_of_mem ops x hx⟩
    · rintro ⟨i, hi⟩
      have := (status_iff_mem_stamped ops e i).mp hi
      exact List.mem_map.mpr ⟨(e, i), this, rfl⟩
  · rw [filesRangeOrder, List.map_reverse, List.nodup_reverse, hmap, List.map_map]
    exact hnd
  · rw [filesRangeOrder, List.pairwise_reverse, hmap, List.pairwise_map]
    have hsg : stampsGood (stampedRun ops [] 0) (0 + ops.length) :=
      stampsGood_run ops [] 0 ⟨(by intro e he; cases he), List.Pairwise.nil⟩
    refine hsg.2.imp_of_mem ?_
    intro a b ha hb hlt
    exact ⟨b.2, a.2, status_of_mem ops b hb, status_of_mem ops a ha, hlt⟩
  · intro f
    rw [runFilesOps, List.foldl_append]
    show ((applyFilesOp (runFilesOps ops) (.touch f))).head? = some f
    rw [applyFilesOp, insertOrReplace_fst]
    rfl

/-- Claim C5 witness: the theorem instantiated on a concrete operation
sequence. -/
theorem claim5_witness :
    ((filesRangeOrder (runFilesOps [.touch ⟨"a", 1⟩, .touch ⟨"b", 2⟩, .del "a"])).map
      (fun e => e.path)).Nodup :=
  (claim5_recency_range_order [.touch ⟨"a", 1⟩, .touch ⟨"b", 2⟩, .del "a"]).2.1

/-! ## Cache byte accounting and eviction

Embedding of `Cache` (cache.go): `usedBytes` is a Go `uint64`, so every
update is reduced modulo `2^64`; `atomicSubtract` transliterates
`atomic.AddUint64(addr, ^(delta-1))`, i.e. two's-complement addition.
The on-disk store is an association of path to file size (file contents and
extended attributes play no role in the accounting claims).  `Get` only
updates the file's access time and reads extended attributes
(cache.go, `Cache.Get`); it touches neither the recency index nor
`usedBytes`, so in this model it is a pure read.
-/

/-- Model of `atomic.AddUint64(addr, ^(delta-1))`: subtraction on `uint64` in
two's-complement-add form, wrapping modulo `2^64`. -/
def atomicSubtract (x delta : Nat) : Nat :=
  (x + (2 ^ 64 - delta % 2 ^ 64) % 2 ^ 64) % 2 ^ 64

/-- Conversion `int64(x)` of a `uint64` value, as used for `toEvict`. -/
def toInt64 (n : Nat) : Int :=
  if n % 2 ^ 64 < 2 ^ 63 then (n % 2 ^ 64 : Int) else (n % 2 ^ 64 : Int) - 2 ^ 64

/-- Size of the file at `p`, if present on disk. -/
def diskLookup (d : List (String × Nat)) (p : String) : Option Nat :=
  (d.find? (fun e => e.1 == p)).map (fun e => e.2)

/-- Model of `root.Remove(path)`: drop the file at `p` from the disk. -/
def diskRemove (d : List (String × Nat)) (p : String) : List (String × Nat) :=
  d.eraseP (fun e => e.1 == p)

/-- Model of `root.Rename(tmp, path)`: the renamed file lands at `p`, overwriting any
previously existing file there. -/
def diskSet (d : List (String × Nat)) (p : String) (n : Nat) : List (String × Nat) :=
  (p, n) :: d.eraseP (fun e => e.1 == p)

/-- Total bytes of the files currently in the store. -/
def diskSum (d : List (String × Nat)) : Nat := (d.map (fun e => e.2)).sum

/-- The cache state: the in-memory recency index (head = newest), the
on-disk files, the `usedBytes` counter and the `maxBytes` quota. -/
structure CacheSt where
  files : List FileEntry
  disk : List (String × Nat)
  used : Nat
  maxB : Nat
deriving DecidableEq, Repr

/-- The body of `Cache.evict`'s `Range` callback (cache.go): walk entries
oldest-first; a missing file (`fs.ErrNotExist`) is tolerated and does not
count toward the deficit; otherwise unlink the file, subtract the entry's
recorded size from `usedBytes` and from the running `toEvict`, and stop
(`errRangeDone`) once `toEvict` drops to zero or below.  The recency index
itself is not modified. -/
def evictLoop :
    List FileEntry → List (String × Nat) → Nat → Int → List (String × Nat) × Nat
  | [], disk, used, _ => (disk, used)
  | f :: rest, disk, used, toEvict =>
    match diskLookup disk f.path with
    | none => evictLoop rest disk used toEvict
    | some _ =>
      let disk' := diskRemove disk f.path
      let used' := atomicSubtract used f.size
      let toEvict' := toEvict - toInt64 f.size
      if toEvict' ≤ 0 then (disk', used') else evictLoop rest disk' used' toEvict'

/-- Model of `Cache.evict(size)` (cache.go): return immediately when
`usedBytes + size <= maxBytes` (`uint64` addition wraps); otherwise run the
eviction loop over the recency index from oldest to newest with an initial
deficit of `int64(size)`. -/
def cacheEvict (st : CacheSt) (size : Nat) : CacheSt :=
  if (st.used + size) % 2 ^ 64 ≤ st.maxB then st
  else
    let r := evictLoop st.files.reverse st.disk st.used (toInt64 size)
    { st with disk := r.1, used := r.2 }

/-- Model of `Cache.Store(f, path, size)` (cache.go): evict to make room, rename the
temp file onto `path` (overwriting), `InsertOrReplace` the recency entry,
subtract the replaced entry's size from `usedBytes` if one existed, then add
the new size. -/
def cacheStore (st : CacheSt) (path : String) (size : Nat) : CacheSt :=
  let st1 := cacheEvict st size
  let disk1 := diskSet st1.disk path size
  let ior := filesInsertOrReplace st1.files ⟨path, size⟩
  let used1 :=
    match ior.2 with
    | some old => atomicSubtract st1.used old.size
    | none => st1.used
  { st1 with disk := disk1, files := ior.1, used := (used1 + size) % 2 ^ 64 }

/-- Model of `Cache.Get(path)` (cache.go): `Chtimes` updates the file's access time
and the three extended attributes are read; none of `files`, `usedBytes` or
the disk contents change, so the state is untouched and the model returns
only whether the file exists (its metadata stands in for the size here). -/
def cacheGet (st : CacheSt) (p : String) : Option Nat :=
  diskLookup st.disk p

/-- A freshly opened cache over an empty directory. -/
def emptyCache (maxB : Nat) : CacheSt :=
  { files := [], disk := [], used := 0, maxB := maxB }

/-- Run a sequence of `Store` (publish) operations. -/
def runStores (st : CacheSt) : List (String × Nat) → CacheSt
  | [] => st
  | (p, n) :: rest => runStores (cacheStore st p n) rest

/-! ### The eviction scenario of claim C1

`max_bytes = 1000`; publish `A (400)`, then `B (400)`, then `Get(A)`, then
publish `C (400)`.  `Cache.Get` only touches the on-disk `atime` and reads
extended attributes; the in-memory recency index is reordered by `Store`
alone, and `Cache.evict` walks that index, never the access times.  So at
the third publish the index order (oldest first) is `A, B`, and eviction
removes `A`, not `B`. -/

/-- Cache state after publishing `A (400)` and `B (400)` with quota 1000. -/
def c1AfterB : CacheSt := runStores (emptyCache 1000) [("A", 400), ("B", 400)]

/-- The `Get(A)` step of the scenario: a successful hit; the state is
unchanged because `Cache.Get` does not modify the index or the counter. -/
def c1GetA : Option Nat := cacheGet c1AfterB "A"

/-- Cache state after the final publish `C (400)`. -/
def c1Final : CacheSt := cacheStore c1AfterB "C" 400

/-- Claim C1 counterexample: in the spec's eviction scenario the code evicts
`A` — the tail of the recency index, which `Get(A)` did not promote — and
retains `B`, contrary to the claim that `B` is evicted and `A` retained. -/
theorem claim1_counterexample :
    c1GetA = some 400 ∧ cacheGet c1Final "A" = none ∧ cacheGet c1Final "B" = some 400 := by
  decide

/-- Claim C1 (amended): in the scenario, the successful `Get(A)` does not
promote `A` in the recency index (promotion happens only on `Store`), so the
third publish evicts `A`, the oldest index entry; `B` and `C` remain cached
and `used_bytes = 800`. -/
theorem claim1_amended :
    c1GetA = some 400 ∧ cacheGet c1Final "A" = none ∧
    cacheGet c1Final "B" = some 400 ∧ cacheGet c1Final "C" = some 400 ∧
    c1Final.used = 800 := by
  decide

/-! ### Byte accounting across evict-then-republish (claims C2 and C4)

`Cache.evict` subtracts an evicted file's size from `usedBytes` but leaves
its recency-index entry in place; when the same key is later published
again, `Store`'s `InsertOrReplace` reports `replaced = true` and subtracts
the stale entry's size a second time.  The counter therefore drifts below
the true total and, once the subtraction wraps the `uint64`, ends up
enormous. -/

/-- Cache state after publishing `A (600)`, `B (600)`, `A (600)` with quota
1000: the second publish evicts `A`'s file (keeping its index entry); the
third evicts `B`'s file and republishes `A`, double-subtracting the stale
600. -/
def c2State : CacheSt := runStores (emptyCache 1000) [("A", 600), ("B", 600), ("A", 600)]

/-- Claim C2 evaluated at the failing input: at a quiescent point the store
holds exactly `A` with 600 bytes while `used_bytes = 0`, violating
`sum(size(object) for object in store) == used_bytes`. -/
theorem claim2_failing_input_eval :
    c2State.used = 0 ∧ diskSum c2State.disk = 600 ∧ cacheGet c2State "A" = some 600 := by
  decide

/-- Cache state after additionally publishing `B (10)`: `InsertOrReplace`
replaces `B`'s stale entry (size 600, file already evicted), and
`atomicSubtract` wraps the counter around `2^64`. -/
def c4State : CacheSt :=
  runStores (emptyCache 1000) [("A", 600), ("B", 600), ("A", 600), ("B", 10)]

/-- Claim C4 evaluated at the failing input: after the fourth publish
(`size = 10`), `used_bytes = 2^64 - 590`, vastly exceeding
`max_bytes + size_of_just_published = 1010`. -/
theorem claim4_failing_input_eval :
    c4State.used = 2 ^ 64 - 590 ∧ c4State.maxB + 10 < c4State.used ∧
    diskSum c4State.disk = 610 := by
  decide

/-! ## Request handler: revalidation, degradation and serve-from-cache

Embedding of the `GET /v2/{registry}/{path...}` handler (main.go,
`App.run`).  Network effects are oracles: the preflight outcome and the
upstream `GET` outcome are inputs.  `serveFromCache` in the code is a
closure over the `cached` pointer returned by `cache.Get`; the model's
`.fromCache` outcome carries that (possibly nil) value, so a `.fromCache
none` outcome would correspond to dereferencing a nil `*Cached`.
`UpdateValidated` sets an extended attribute on the cached file, which
fails (`ENOENT` from `setxattr`) when no file exists at the path; the model
takes the file's existence as the input `fileOnDisk`. -/

/-- The `Cached` metadata returned by `cache.Get` (cache.go): media type,
entity tag and last-validation time (modelled as a `Nat` clock). -/
structure CachedMeta where
  mimeType : String
  eTag : String
  validated : Nat
deriving DecidableEq, Repr

/-- How the handler concludes: serve the cached file (carrying the `cached`
value the closure dereferences), 404 for an unknown registry, an error
response (`logutil.NewError` surfaced as 5xx) tagged with its stage, or
proxy the upstream 200 body (fetch-and-store). -/
inductive Outcome where
  | fromCache (c : Option CachedMeta)
  | notFound
  | errResp (stage : String)
  | proxied
deriving DecidableEq, Repr

/-- The handler body (main.go, `App.run`): compute `revalidate`; serve fresh
hits immediately; 404 unknown registries; on preflight error serve stale if
revalidating, else surface; issue the `GET`; treat a transport error or a
status outside {200, 304} as an error (stale → serve from cache, cold →
surface); on 304 update the validation attribute and serve from cache; on
200 proceed to fetch-and-store. -/
def handlerRun (now uct : Nat) (cached : Option CachedMeta) (regKnown fileOnDisk : Bool)
    (pf : Except Unit String) (doReq : Except Unit Nat) : Outcome :=
  let revalidate :=
    match cached with
    | some c => decide (c.validated + uct < now)
    | none => false
  if cached.isSome && !revalidate then .fromCache cached
  else if !regKnown then .notFound
  else
    match pf with
    | .error _ => if revalidate then .fromCache cached else .errResp "preflight"
    | .ok _ =>
      match doReq with
      | .error _ => if revalidate then .fromCache cached else .errResp "do request"
      | .ok status =>
        if !(status == 200 || status == 304) then
          if revalidate then .fromCache cached else .errResp "do request"
        else if status == 304 then
          if fileOnDisk then .fromCache cached else .errResp "update cache expiry"
        else .proxied

/-- True when the upstream path failed: the preflight errored, the `GET`'s
transport errored, or the upstream status is neither 200 nor 304. -/
def upstreamFailed (pf : Except Unit String) (doReq : Except Unit Nat) : Bool :=
  match pf with
  | .error _ => true
  | .ok _ =>
    match doReq with
    | .error _ => true
    | .ok status => !(status == 200 || status == 304)

/-- True when the handler surfaced an error response to the client. -/
def isErrResp : Outcome → Bool
  | .errResp _ => true
  | _ => false

/-- Claim C3: with a stale cached entry (`revalidate` true) every upstream
failure — preflight error, transport error on the `GET`, or a status other
than 200/304 — is absorbed and the stale copy is served; on a cold miss the
same failures surface to the client as an error response. -/
theorem claim3_graceful_degradation (now uct : Nat) (c : CachedMeta)
    (fileOnDisk : Bool) (pf : Except Unit String) (doReq : Except Unit Nat)
    (hstale : c.validated + uct < now)
    (hfail : upstreamFailed pf doReq = true) :
    handlerRun now uct (some c) true fileOnDisk pf doReq = .fromCache (some c) ∧
    isErrResp (handlerRun now uct none true fileOnDisk pf doReq) = true := by
  have hrev : decide (c.validated + uct < now) = true := decide_eq_true hstale
  cases pf with
  | error e =>
    simp [handlerRun, hrev, isErrResp]
  | ok tok =>
    cases doReq with
    | error e =>
      simp [handlerRun, hrev, isErrResp]
    | ok status =>
      have hbad : (status == 200 || status == 304) = false := by
        simpa [upstreamFailed] using hfail
      simp [handlerRun, hrev, hbad, isErrResp]

/-- Claim C3 witness: preflight failure on a stale entry is absorbed, and
surfaces on the cold miss. -/
theorem claim3_witness :
    (⟨"m", "e", 0⟩ : CachedMeta).validated + 1 < 10 ∧
    upstreamFailed (.error ()) (.ok 200) = true ∧
    (handlerRun 10 1 (some ⟨"m", "e", 0⟩) true true (.error ()) (.ok 200) =
        .fromCache (some ⟨"m", "e", 0⟩) ∧
      isErrResp (handlerRun 10 1 none true true (.error ()) (.ok 200)) = true) :=
  ⟨by decide, by decide,
    claim3_graceful_degradation 10 1 ⟨"m", "e", 0⟩ true (.error ()) (.ok 200)
      (by decide) (by decide)⟩

/-- Claim C8: the handler only ever reaches serve-from-cache with the value
`cache.Get` returned, and — given the cold-miss quiescence fact that a nil
`cached` means no file on disk, so the unsolicited-304 branch's
`UpdateValidated` fails before serving — that value is never nil: the
closure never dereferences an absent cached entry. -/
theorem claim8_no_nil_dereference (now uct : Nat) (cached : Option CachedMeta)
    (regKnown fileOnDisk : Bool) (pf : Except Unit String) (doReq : Except Unit Nat)
    (hq : cached.isSome = fileOnDisk) :
    ∀ o, handlerRun now uct cached regKnown fileOnDisk pf doReq = .fromCache o →
      o = cached ∧ o.isSome = true := by
  intro o h
  cases cached with
  | some c =>
    by_cases hrev : c.validated + uct < now
    · cases hreg : regKnown with
      | false => simp [handlerRun, hrev, hreg] at h
      | true =>
        cases pf with
        | error e =>
          simp [handlerRun, hrev, hreg] at h
          exact ⟨h.symm, by rw [← h]; rfl⟩
        | ok tok =>
          cases doReq with
          | error e =>
            simp [handlerRun, hrev, hreg] at h
            exact ⟨h.symm, by rw [← h]; rfl⟩
          | ok status =>
            by_cases hs : (status == 200 || status == 304) = true
            · by_cases h304 : (status == 304) = true
              · cases hfd : fileOnDisk with
                | true =>
                  simp [handlerRun, hrev, hreg, hs, h304, hfd] at h
                  exact ⟨h.symm, by rw [← h]; rfl⟩
                | false => simp [handlerRun, hrev, hreg, hs, h304, hfd] at h
              · have h200 : status = 200 := by
                  rcases (by simpa using hs : status = 200 ∨ status = 304) with hx | hx
                  · exact hx
                  · exact absurd hx (by simpa using h304)
                simp [handlerRun, hrev, hreg, hs, h304, h200] at h
            · simp [handlerRun, hrev, hreg, hs] at h
              exact ⟨h.symm, by rw [← h]; rfl⟩
    · simp [handlerRun, hrev] at h
      exact ⟨h.symm, by rw [← h]; rfl⟩
  | none =>
    have hfd : fileOnDisk = false := by simpa using hq.symm
    subst hfd
    exfalso
    cases hreg : regKnown with
    | false => simp [handlerRun, hreg] at h
    | true =>
      cases pf with
      | error e => simp [handlerRun, hreg] at h
      | ok tok =>
        cases doReq with
        | error e => simp [handlerRun, hreg] at h
        | ok status =>
          by_cases hs : (status == 200 || status == 304) = true
          · by_cases h304 : (status == 304) = true
            · simp [handlerRun, hreg, hs, h304] at h
            · have h200 : status = 200 := by
                rcases (by simpa using hs : status = 200 ∨ status = 304) with hx | hx
                · exact hx
                · exact absurd hx (by simpa using h304)
              simp [handlerRun, hreg, hs, h304, h200] at h
          · simp [handlerRun, hreg, hs] at h

/-- Claim C8 witness: a fresh hit serves the present cached entry. -/
theorem claim8_witness :
    (some (⟨"m", "e", 7⟩ : CachedMeta)).isSome = true ∧
    (some (⟨"m", "e", 7⟩ : CachedMeta) = some ⟨"m", "e", 7⟩ ∧
      (some (⟨"m", "e", 7⟩ : CachedMeta)).isSome = true) :=
  ⟨rfl,
    claim8_no_nil_dereference 0 5 (some ⟨"m", "e", 7⟩) true true (.ok "") (.ok 200)
      rfl (some ⟨"m", "e", 7⟩) (by decide)⟩

/-! ## Fetch-and-store: the Content-Length requirement (claim C6) -/

/-- Model of `strconv.ParseUint(s, 10, 64)`: a non-empty all-decimal-digit string
whose value fits an unsigned 64-bit integer; anything else (empty string,
signs, other characters, out of range) fails. -/
def parseUint64 (s : String) : Option Nat :=
  if s.data ≠ [] ∧ s.data.all (fun c => c.isDigit) then
    let n := s.data.foldl (fun acc c => acc * 10 + (c.toNat - '0'.toNat)) 0
    if n < 2 ^ 64 then some n else none
  else none

/-- Modelled from the spec: the fetch-and-store section of the current
request handler is not part of the source snapshot — src/main.go is an
older revision that still calls the two-argument `Cache.Store` and never
derives a size, while src/cache/cache.go's `Store(f, path, size uint64)`
requires one.  Per spec §4.4 Fetch-and-store, the handler requires the
upstream 200 response to carry a `Content-Length` parseable as an unsigned
64-bit integer and fails the request (`error (unsupported)`) when the
header is absent (`Header.Get` returns the empty string) or unparseable;
otherwise it streams, tees and publishes with that size. -/
def fetchAndStore (contentLength : String) : Except Unit Nat :=
  match parseUint64 contentLength with
  | none => .error ()
  | some n => .ok n

/-- Claim C6: fetch-and-store errors exactly when the `Content-Length`
header is absent or not parseable as an unsigned 64-bit integer, and
otherwise proceeds to stream and publish with the parsed size. -/
theorem claim6_content_length_required (cl : String) :
    (fetchAndStore cl = .error () ↔ parseUint64 cl = none) ∧
    (∀ n, fetchAndStore cl = .ok n ↔ parseUint64 cl = some n) := by
  constructor
  · cases h : parseUint64 cl <;> simp [fetchAndStore, h]
  · intro n
    cases h : parseUint64 cl <;> simp [fetchAndStore, h]

/-- Claim C6 witness: a parseable header publishes with the parsed size,
an absent one errors. -/
theorem claim6_witness :
    fetchAndStore "1234" = .ok 1234 ∧ fetchAndStore "" = .error () :=
  ⟨((claim6_content_length_required "1234").2 1234).mpr (by decide),
    (claim6_content_length_required "").1.mpr (by decide)⟩

/-! ## Extended-attribute reads (claim C10) -/

/-- Errors of the `getxattr(2)` system call that matter here. -/
inductive XAttrErr where
  | erange
deriving DecidableEq, Repr

/-- The `getxattr(2)` system call semantics for a present attribute: when
the destination buffer is smaller than the attribute value the call fails
with `ERANGE`; otherwise it fills the buffer with the value and returns its
length.  (Linux getxattr(2); the Darwin call behaves the same for this
case.) -/
def getxattrSys (value : List Nat) (bufSize : Nat) : Except XAttrErr (List Nat) :=
  if bufSize < value.length then .error .erange else .ok value

/-- Model of `getXAttr` (cache.go): allocate a 256-byte buffer, call
`unix.Getxattr`, and on success return the first `n` bytes. -/
def getXAttrModel (value : List Nat) : Except XAttrErr (List Nat) :=
  match getxattrSys value 256 with
  | .error e => .error e
  | .ok v => .ok (v.take v.length)

/-- Claim C10 counterexample: a stored attribute value of 257 bytes makes
`getXAttr` fail with `ERANGE` — it is not truncated to its first 256
bytes as the claim states. -/
theorem claim10_counterexample :
    getXAttrModel (List.replicate 257 65) = .error .erange ∧
    getXAttrModel (List.replicate 257 65) ≠ .ok (List.replicate 256 65) := by
  have h1 : getXAttrModel (List.replicate 257 65) = .error .erange := rfl
  refine ⟨h1, ?_⟩
  rw [h1]
  intro h
  exact Except.noConfusion h

/-- Claim C10 (amended): reading a metadata attribute returns the full
value when it is at most 256 bytes, and fails with `ERANGE` (rather than
truncating) when the stored value is longer than 256 bytes. -/
theorem claim10_amended (value : List Nat) :
    (value.length ≤ 256 → getXAttrModel value = .ok value) ∧
    (256 < value.length → getXAttrModel value = .error .erange) := by
  constructor
  · intro h
    have hb : ¬ 256 < value.length := by omega
    simp [getXAttrModel, getxattrSys, hb]
  · intro h
    simp [getXAttrModel, getxattrSys, h]

/-- Claim C10 witness: a 10-byte value is returned in full and a 300-byte
value errors. -/
theorem claim10_witness :
    (getXAttrModel (List.replicate 10 7) = .ok (List.replicate 10 7)) ∧
    (getXAttrModel (List.replicate 300 7) = .error .erange) :=
  ⟨(claim10_amended (List.replicate 10 7)).1 (by decide),
    (claim10_amended (List.replicate 300 7)).2 (by decide)⟩

/-! ## The WWW-Authenticate challenge parser (claim C7)

Embedding of package wwwauth.  The lexer follows the five `SimpleRule`s:
whitespace `[\t\n\f\r ]+` (elided), `,`, `=`, names `[a-zA-Z0-9_*.-]+`, and
quoted values `"(\\"|[^"])*"`, which are unquoted.  The model's unquoting
covers the escape pairs backslash-quote and backslash-backslash and rejects
other backslash escapes, which Go's `strconv.Unquote` (and hence participle)
likewise rejects for the simple escapes exercised here; exotic escapes such
as `\n` or `\u` are outside the claims' inputs.  The grammar is
`challenge = Name param ("," param)* ; param = Name "=" Value`, consuming
the entire input. -/

/-- A `k="v"` parameter of the challenge. -/
structure WParam where
  field : String
  value : String
deriving DecidableEq, Repr

/-- The parser's success value `{realm, service, scope}`. -/
structure WWWAuthenticate where
  realm : String
  service : String
  scope : String
deriving DecidableEq, Repr

/-- The structured OAuth-style error `{code, description, uri}`. -/
structure WWWAuthError where
  code : String
  description : String
  uri : String
deriving DecidableEq, Repr

/-- Lexer tokens (whitespace already elided, values already unquoted). -/
inductive WToken where
  | name (s : String)
  | value (s : String)
  | comma
  | eq
deriving DecidableEq, Repr

/-- The `Name` rule's character class `[a-zA-Z0-9_*.-]`. -/
def isNameChar (c : Char) : Bool :=
  c.isAlpha || c.isDigit || c == '_' || c == '*' || c == '.' || c == '-'

/-- Go regexp `\s`: `[\t\n\f\r ]`. -/
def isWSChar (c : Char) : Bool :=
  c == ' ' || c == '\t' || c == '\n' || c == '\r' || c == '\x0c'

/-- Scan a quoted value after the opening quote, honoring the escapes; the
result is the unquoted content plus the remaining input. -/
def lexValue : Nat → List Char → List Char → Option (String × List Char)
  | 0, _, _ => none
  | _ + 1, [], _ => none
  | fuel + 1, c :: rest, acc =>
    if c == '"' then some (String.mk acc.reverse, rest)
    else if c == '\\' then
      match rest with
      | '"' :: rest' => lexValue fuel rest' ('"' :: acc)
      | '\\' :: rest' => lexValue fuel rest' ('\\' :: acc)
      | _ => none
    else lexValue fuel rest (c :: acc)

/-- Tokenize the header value; `none` is a lexer error (a character matched
by no rule, or an unterminated or invalidly escaped value). -/
def lexTokens : Nat → List Char → Option (List WToken)
  | 0, _ => none
  | _ + 1, [] => some []
  | fuel + 1, c :: rest =>
    if isWSChar c then lexTokens fuel rest
    else if c == ',' then (lexTokens fuel rest).map (fun ts => .comma :: ts)
    else if c == '=' then (lexTokens fuel rest).map (fun ts => .eq :: ts)
    else if isNameChar c then
      let tok := (c :: rest).takeWhile isNameChar
      (lexTokens fuel ((c :: rest).dropWhile isNameChar)).map
        (fun ts => .name (String.mk tok) :: ts)
    else if c == '"' then
      match lexValue (fuel + 1) rest [] with
      | none => none
      | some (v, rest') => (lexTokens fuel rest').map (fun ts => .value v :: ts)
    else none

/-- Lex a header string. -/
def wwwLex (s : String) : Option (List WToken) :=
  lexTokens (s.length + 1) s.data

/-- Parse `param ("," param)*` to the end of the token stream. -/
def parseParams : Nat → List WToken → Option (List WParam)
  | 0, _ => none
  | _ + 1, .name f :: .eq :: .value v :: rest =>
    match rest with
    | [] => some [⟨f, v⟩]
    | .comma :: rest' => (parseParams rest'.length rest').map (fun ps => ⟨f, v⟩ :: ps)
    | _ => none
  | _ + 1, _ => none

/-- Parse `Name param ("," param)*`: the scheme followed by at least one
parameter (the grammar struct requires the parameter list). -/
def parseChallenge (toks : List WToken) : Option (String × List WParam) :=
  match toks with
  | .name scheme :: rest => (parseParams (rest.length + 1) rest).map (fun ps => (scheme, ps))
  | _ => none

/-- How `Parse` concludes. -/
inductive ParseOut where
  | ok (w : WWWAuthenticate)
  | unknownField (f : String)
  | challengeErr (e : WWWAuthError)
  | syntaxErr
deriving DecidableEq, Repr

/-- The six recognized parameter names. -/
def recognizedField (f : String) : Bool :=
  f == "realm" || f == "service" || f == "scope" ||
  f == "error" || f == "error_description" || f == "error_uri"

/-- The field-dispatch loop of `Parse` (wwwauth.go): accumulate the success
fields and the error fields; an unrecognized name returns the "unknown
field" error immediately; after the loop a non-empty error code yields the
structured error, otherwise the success value. -/
def pLoop : List WParam → WWWAuthenticate → WWWAuthError → ParseOut
  | [], ret, werr => if werr.code ≠ "" then .challengeErr werr else .ok ret
  | p :: rest, ret, werr =>
    if p.field == "realm" then pLoop rest { ret with realm := p.value } werr
    else if p.field == "service" then pLoop rest { ret with service := p.value } werr
    else if p.field == "scope" then pLoop rest { ret with scope := p.value } werr
    else if p.field == "error" then pLoop rest ret { werr with code := p.value }
    else if p.field == "error_description" then
      pLoop rest ret { werr with description := p.value }
    else if p.field == "error_uri" then pLoop rest ret { werr with uri := p.value }
    else .unknownField p.field

/-- Model of `wwwauth.Parse`: lex, parse the grammar, then run the field loop. -/
def wwwauthParse (s : String) : ParseOut :=
  match wwwLex s with
  | none => .syntaxErr
  | some toks =>
    match parseChallenge toks with
    | none => .syntaxErr
    | some sp => pLoop sp.2 ⟨"", "", ""⟩ ⟨"", "", ""⟩

/-- The success fields accumulated over a parameter list (last value per
name wins). -/
def foldAuth : List WParam → WWWAuthenticate → WWWAuthenticate
  | [], r => r
  | p :: rest, r =>
    foldAuth rest
      (if p.field == "realm" then { r with realm := p.value }
       else if p.field == "service" then { r with service := p.value }
       else if p.field == "scope" then { r with scope := p.value }
       else r)

/-- The error fields accumulated over a parameter list (last value per name
wins). -/
def foldErr : List WParam → WWWAuthError → WWWAuthError
  | [], e => e
  | p :: rest, e =>
    foldErr rest
      (if p.field == "error" then { e with code := p.value }
       else if p.field == "error_description" then { e with description := p.value }
       else if p.field == "error_uri" then { e with uri := p.value }
       else e)

theorem pLoop_cons_unknown (p : WParam) (rest : List WParam)
    (ret : WWWAuthenticate) (werr : WWWAuthError)
    (h : recognizedField p.field = false) :
    pLoop (p :: rest) ret werr = .unknownField p.field := by
  have h' := h
  simp only [recognizedField, Bool.or_eq_false_iff] at h'
  obtain ⟨⟨⟨⟨⟨h1, h2⟩, h3⟩, h4⟩, h5⟩, h6'⟩ := h'
  simp [pLoop, h1, h2, h3, h4, h5, h6']

theorem pLoop_all_recognized (ps : List WParam) :
    ∀ (ret : WWWAuthenticate) (werr : WWWAuthError),
    (∀ p ∈ ps, recognizedField p.field = true) →
    pLoop ps ret werr =
      (if (foldErr ps werr).code ≠ "" then .challengeErr (foldErr ps werr)
       else .ok (foldAuth ps ret)) := by
  induction ps with
  | nil => intro ret werr _; rfl
  | cons p rest ih =>
    intro ret werr hall
    have hrec := hall p (List.mem_cons_self p rest)
    have hrest : ∀ q ∈ rest, recognizedField q.field = true := fun q hq =>
      hall q (List.mem_cons_of_mem p hq)
    by_cases h1 : p.field == "realm"
    · have hne : ∀ s, s ∈ ["service", "scope", "error", "error_description", "error_uri"] →
          (p.field == s) = false := by
        intro s hs
        have hp : p.field = "realm" := by simpa using h1
        fin_cases hs <;> simp [hp]
      simp only [pLoop, foldAuth, foldErr, h1, if_true,
        hne "error" (by simp), hne "error_description" (by simp),
        hne "error_uri" (by simp), if_false, Bool.false_eq_true]
      exact ih _ _ hrest
    · by_cases h2 : p.field == "service"
      · have hp : p.field = "service" := by simpa using h2
        simp only [pLoop, foldAuth, foldErr, h1, h2, hp, if_true, if_false]
        simp only [show ("service" == "error") = false from rfl,
          show ("service" == "error_description") = false from rfl,
          show ("service" == "error_uri") = false from rfl,
          Bool.false_eq_true, if_false]
        exact ih _ _ hrest
      · by_cases h3 : p.field == "scope"
        · have hp : p.field = "scope" := by simpa using h3
          simp only [pLoop, foldAuth, foldErr, h1, h2, h3, hp, if_true, if_false]
          simp only [show ("scope" == "error") = false from rfl,
            show ("scope" == "error_description") = false from rfl,
            show ("scope" == "error_uri") = false from rfl,
            Bool.false_eq_true, if_false]
          exact ih _ _ hrest
        · by_cases h4 : p.field == "error"
          · have hp : p.field = "error" := by simpa using h4
            simp only [pLoop, foldAuth, foldErr, h1, h2, h3, h4, hp, if_true, if_false]
            simp only [show ("error" == "realm") = false from rfl,
              show ("error" == "service") = false from rfl,
              show ("error" == "scope") = false from rfl,
              Bool.false_eq_true, if_false]
            exact ih _ _ hrest
          · by_cases h5 : p.field == "error_description"
            · have hp : p.field = "error_description" := by simpa using h5
              simp only [pLoop, foldAuth, foldErr, h1, h2, h3, h4, h5, hp, if_true, if_false]
              simp only [show ("error_description" == "realm") = false from rfl,
                show ("error_description" == "service") = false from rfl,
                show ("error_description" == "scope") = false from rfl,
                show ("error_description" == "error") = false from rfl,
                Bool.false_eq_true, if_false]
              exact ih _ _ hrest
            · by_cases h6 : p.field == "error_uri"
              · have hp : p.field = "error_uri" := by simpa using h6
                simp only [pLoop, foldAuth, foldErr, h1, h2, h3, h4, h5, h6, hp,
                  if_true, if_false]
                simp only [show ("error_uri" == "realm") = false from rfl,
                  show ("error_uri" == "service") = false from rfl,
                  show ("error_uri" == "scope") = false from rfl,
                  show ("error_uri" == "error") = false from rfl,
                  show ("error_uri" == "error_description") = false from rfl,
                  Bool.false_eq_true, if_false]
                exact ih _ _ hrest
              · exfalso
                have : recognizedField p.field = false := by
                  simp [recognizedField, h1, h2, h3, h4, h5, h6]
                rw [this] at hrec
                cases hrec

theorem pLoop_unknown_somewhere (ps : List WParam) :
    ∀ (ret : WWWAuthenticate) (werr : WWWAuthError),
    (∃ p ∈ ps, recognizedField p.field = false) →
    ∃ f, pLoop ps ret werr = .unknownField f ∧ recognizedField f = false := by
  induction ps with
  | nil =>
    intro ret werr h
    rcases h with ⟨p, hp, _⟩
    cases hp
  | cons p rest ih =>
    intro ret werr h
    by_cases hrec : recognizedField p.field = true
    · have hex : ∃ q ∈ rest, recognizedField q.field = false := by
        rcases h with ⟨q, hq, hqf⟩
        rcases List.mem_cons.mp hq with rfl | hq'
        · rw [hrec] at hqf; cases hqf
        · exact ⟨q, hq', hqf⟩
      have h6 := hrec
      by_cases h1 : p.field == "realm"
      · simp only [pLoop, h1, if_true]; exact ih _ _ hex
      · by_cases h2 : p.field == "service"
        · simp only [pLoop, h1, h2, if_true, if_false, Bool.false_eq_true]
          exact ih _ _ hex
        · by_cases h3 : p.field == "scope"
          · simp only [pLoop, h1, h2, h3, if_true, if_false, Bool.false_eq_true]
            exact ih _ _ hex
          · by_cases h4 : p.field == "error"
            · simp only [pLoop, h1, h2, h3, h4, if_true, if_false, Bool.false_eq_true]
              exact ih _ _ hex
            · by_cases h5 : p.field == "error_description"
              · simp only [pLoop, h1, h2, h3, h4, h5, if_true, if_false,
                  Bool.false_eq_true]
                exact ih _ _ hex
              · by_cases h6' : p.field == "error_uri"
                · simp only [pLoop, h1, h2, h3, h4, h5, h6', if_true, if_false,
                    Bool.false_eq_true]
                  exact ih _ _ hex
                · exfalso
                  have : recognizedField p.field = false := by
                    simp [recognizedField, h1, h2, h3, h4, h5, h6']
                  rw [this] at h6
                  cases h6
    · have hfalse : recognizedField p.field = false := by
        cases hx : recognizedField p.field
        · rfl
        · exact absurd hx hrec
      exact ⟨p.field, pLoop_cons_unknown p rest ret werr hfalse, hfalse⟩

/-- True when `Parse` returned the structured challenge error. -/
def isChallengeErr : ParseOut → Bool
  | .challengeErr _ => true
  | _ => false

/-- The concrete input of the counterexample: the `error` parameter is
present and non-empty, but an unrecognized parameter name follows. -/
def c7BadInput : String := "Bearer error=\"denied\",foo=\"x\""

/-- Claim C7 counterexample: with `error` present and non-empty but an
unknown parameter name also present, `Parse` returns the "unknown field"
error, not the structured `{code, description, uri}` error the claim
promises. -/
theorem claim7_counterexample :
    wwwauthParse c7BadInput = .unknownField "foo" ∧
    isChallengeErr (wwwauthParse c7BadInput) = false := by
  constructor
  · rfl
  · rfl

/-- Claim C7 (amended): the concrete round trip holds; an unrecognized
parameter name anywhere yields the "unknown field" error (which takes
precedence); and when every parameter name is recognized and the
accumulated `error` code (last `error` parameter wins) is non-empty,
`Parse` returns the structured error `{code, description, uri}` built from
the last `error`, `error_description` and `error_uri` values. -/
theorem claim7_amended :
    wwwauthParse "Bearer realm=\"R\",service=\"S\",scope=\"C\"" =
      .ok ⟨"R", "S", "C"⟩ ∧
    (∀ (ps : List WParam) (ret : WWWAuthenticate) (werr : WWWAuthError),
      (∃ p ∈ ps, recognizedField p.field = false) →
      ∃ f, pLoop ps ret werr = .unknownField f ∧ recognizedField f = false) ∧
    (∀ ps : List WParam, (∀ p ∈ ps, recognizedField p.field = true) →
      (foldErr ps ⟨"", "", ""⟩).code ≠ "" →
      pLoop ps ⟨"", "", ""⟩ ⟨"", "", ""⟩ = .challengeErr (foldErr ps ⟨"", "", ""⟩)) := by
  refine ⟨?_, ?_, ?_⟩
  · rfl
  · exact fun ps ret werr h => pLoop_unknown_somewhere ps ret werr h
  · intro ps hall hcode
    rw [pLoop_all_recognized ps ⟨"", "", ""⟩ ⟨"", "", ""⟩ hall, if_pos hcode]

/-- Claim C7 witness: an unknown name produces the unknown-field error,
and a lone non-empty `error` parameter produces the structured error. -/
theorem claim7_witness :
    (∃ f, pLoop [⟨"bogus", "x"⟩] ⟨"", "", ""⟩ ⟨"", "", ""⟩ = .unknownField f ∧
      recognizedField f = false) ∧
    pLoop [⟨"error", "denied"⟩] ⟨"", "", ""⟩ ⟨"", "", ""⟩ =
      .challengeErr (foldErr [⟨"error", "denied"⟩] ⟨"", "", ""⟩) :=
  ⟨claim7_amended.2.1 [⟨"bogus", "x"⟩] ⟨"", "", ""⟩ ⟨"", "", ""⟩
      ⟨⟨"bogus", "x"⟩, by decide, by decide⟩,
    claim7_amended.2.2 [⟨"error", "denied"⟩] (by decide) (by decide)⟩

/-! ## Path sanitization (claim C9)

Embedding of `Cache.absoluteInRoot` (cache.go):
`filepath.Join(root.Name(), filepath.Join("/", path))` on Linux.
`filepath.Clean` is modelled by its lexical semantics: split on `/`, drop
empty and `.` segments, process `..` against a stack (at the root a `..` is
dropped; in a relative path leading `..`s accumulate), and rebuild.
`filepath.Join` concatenates its non-empty elements with `/` and cleans the
result, returning the empty string when all elements are empty. -/

/-- Split on `/`: the first segment and the remaining segments. -/
def splitSlashAux : List Char → List Char × List (List Char)
  | [] => ([], [])
  | c :: rest =>
    let r := splitSlashAux rest
    if c = '/' then ([], r.1 :: r.2) else (c :: r.1, r.2)

/-- All `/`-separated segments of a character list (empty segments kept,
as `strings.Split` would). -/
def splitSlash (l : List Char) : List (List Char) :=
  (splitSlashAux l).1 :: (splitSlashAux l).2

/-- Join segments with `/`. -/
def joinSlash : List (List Char) → List Char
  | [] => []
  | [a] => a
  | a :: b :: rest => a ++ '/' :: joinSlash (b :: rest)

/-- The segments `Clean` actually processes: non-empty and not `.`. -/
def segsOf (l : List Char) : List (List Char) :=
  (splitSlash l).filter (fun t => t != [] && t != ['.'])

/-- One step of `Clean`'s element processing; the accumulator is the
output stack with its most recent segment first.  A `..` pops a normal
segment, extends a run of leading `..`s (relative paths only — on a rooted
path the stack never holds `..`), and disappears at the root. -/
def cleanStep (rooted : Bool) (acc : List (List Char)) (seg : List Char) :
    List (List Char) :=
  if seg = ['.', '.'] then
    match acc with
    | a :: as => if a = ['.', '.'] then seg :: acc else as
    | [] => if rooted then [] else [seg]
  else seg :: acc

/-- Process all segments against the stack. -/
def cleanStack (rooted : Bool) (segs acc : List (List Char)) : List (List Char) :=
  segs.foldl (cleanStep rooted) acc

/-- Model of `filepath.Clean` (lexical path normalization, `/` separator). -/
def goClean (s : String) : String :=
  if s.data = [] then "."
  else
    let rooted := s.data.head? == some '/'
    let stack := (cleanStack rooted (segsOf s.data) []).reverse
    if rooted then String.mk ('/' :: joinSlash stack)
    else if stack = [] then "." else String.mk (joinSlash stack)

/-- Model of `filepath.Join` of two elements: skip empty elements, join the rest
with `/` and clean; all-empty input yields the empty string. -/
def goJoin2 (a b : String) : String :=
  if a = "" then (if b = "" then "" else goClean b)
  else if b = "" then goClean a
  else goClean (a ++ "/" ++ b)

/-- Model of `Cache.absoluteInRoot` (cache.go): `Join(root, Join("/", path))`; the
root directory name is kept as the abstract `root` string rather than the
process-wide absolute name. -/
def absoluteInRoot (root p : String) : String :=
  goJoin2 root (goJoin2 "/" p)

/-- A fully normalized, separator-free path segment: non-empty, without
`/`, and neither `.` nor `..`. -/
def goodSeg (t : List Char) : Prop :=
  t ≠ [] ∧ '/' ∉ t ∧ t ≠ ['.'] ∧ t ≠ ['.', '.']

/-- A segment as produced by splitting and filtering: non-empty, without
`/`, not `.` — but possibly `..`. -/
def okSeg (t : List Char) : Prop :=
  t ≠ [] ∧ '/' ∉ t ∧ t ≠ ['.']

/-- The characters every path lying under `root` starts with: `root`
followed by a separator (just the separator when `root` is `/` itself). -/
def underData (root : String) : List Char :=
  if root = "/" then ['/'] else root.data ++ ['/']

/-- Predicate: `q` lies under the directory `root`: it is `root` itself, or `root`
followed by a separator and a non-empty normalized relative path without
any `..` segment. -/
def liesUnder (root q : String) : Prop :=
  q = root ∨ ∃ segs : List (List Char), segs ≠ [] ∧ (∀ t ∈ segs, goodSeg t) ∧
    q.data = underData root ++ joinSlash segs

section PathScratch

example : goClean "//../..//asdf" = "/asdf" := by decide
example : goClean "a/../../b" = "../b" := by decide
example : goClean "/" = "/" := by decide
example : goClean "" = "." := by decide
example : goJoin2 "/" "../../asdf" = "/asdf" := by decide
example : goJoin2 "/test" (goJoin2 "/" "../../asdf") = "/test/asdf" := by decide

end PathScratch

theorem splitSlashAux_no_slash (l : List Char) :
    '/' ∉ (splitSlashAux l).1 ∧ ∀ t ∈ (splitSlashAux l).2, '/' ∉ t := by
  induction l with
  | nil => exact ⟨by simp [splitSlashAux], by simp [splitSlashAux]⟩
  | cons c rest ih =>
    obtain ⟨ih1, ih2⟩ := ih
    by_cases hc : c = '/'
    · refine ⟨by simp [splitSlashAux, hc], ?_⟩
      intro t ht
      simp only [splitSlashAux, hc, if_true] at ht
      rcases List.mem_cons.mp ht with rfl | ht'
      · exact ih1
      · exact ih2 t ht'
    · refine ⟨?_, ?_⟩
      · simp only [splitSlashAux, if_neg hc]
        intro hmem
        rcases List.mem_cons.mp hmem with h | h
        · exact hc h.symm
        · exact ih1 h
      · intro t ht
        simp only [splitSlashAux, if_neg hc] at ht
        exact ih2 t ht

theorem splitSlash_no_slash (l : List Char) : ∀ t ∈ splitSlash l, '/' ∉ t := by
  intro t ht
  rcases List.mem_cons.mp ht with rfl | ht'
  · exact (splitSlashAux_no_slash l).1
  · exact (splitSlashAux_no_slash l).2 t ht'

theorem splitSlashAux_append (xs ys : List Char) :
    splitSlashAux (xs ++ '/' :: ys) =
      ((splitSlashAux xs).1, (splitSlashAux xs).2 ++ splitSlash ys) := by
  induction xs with
  | nil => simp [splitSlashAux, splitSlash]
  | cons c xs ih =>
    by_cases hc : c = '/' <;> simp [splitSlashAux, hc, ih]

theorem splitSlash_append (xs ys : List Char) :
    splitSlash (xs ++ '/' :: ys) = splitSlash xs ++ splitSlash ys := by
  simp [splitSlash, splitSlashAux_append]

theorem splitSlashAux_of_no_slash (l : List Char) (h : '/' ∉ l) :
    splitSlashAux l = (l, []) := by
  induction l with
  | nil => rfl
  | cons c rest ih =>
    have h1 : ¬ c = '/' := by
      intro he
      exact h (by rw [he]; exact List.mem_cons_self _ _)
    have h2 : '/' ∉ rest := fun hm => h (List.mem_cons_of_mem c hm)
    simp [splitSlashAux, h1, ih h2]

theorem splitSlash_of_no_slash (l : List Char) (h : '/' ∉ l) : splitSlash l = [l] := by
  simp [splitSlash, splitSlashAux_of_no_slash l h]

theorem joinSlash_append (A B : List (List Char)) (hA : A ≠ []) (hB : B ≠ []) :
    joinSlash (A ++ B) = joinSlash A ++ '/' :: joinSlash B := by
  induction A with
  | nil => cases hA rfl
  | cons a A ih =>
    cases A with
    | nil =>
      cases B with
      | nil => cases hB rfl
      | cons b B => simp [joinSlash]
    | cons a2 A2 =>
      have hstep := ih (by simp)
      show joinSlash (a :: a2 :: (A2 ++ B)) = _
      rw [joinSlash]
      rw [show a2 :: (A2 ++ B) = (a2 :: A2) ++ B from rfl, hstep]
      simp [joinSlash]

theorem joinSlash_ne_nil (a : List Char) (tl : List (List Char)) (h : a ≠ []) :
    joinSlash (a :: tl) ≠ [] := by
  cases tl with
  | nil => simpa [joinSlash] using h
  | cons b tl2 =>
    rw [joinSlash]
    intro hx
    rcases List.append_eq_nil.mp hx with ⟨h1, _⟩
    exact h h1

theorem splitSlash_joinSlash (segs : List (List Char)) (hne : segs ≠ [])
    (h : ∀ t ∈ segs, t ≠ [] ∧ '/' ∉ t) :
    splitSlash (joinSlash segs) = segs := by
  induction segs with
  | nil => cases hne rfl
  | cons a rest ih =>
    cases rest with
    | nil =>
      exact splitSlash_of_no_slash a (h a (by simp)).2 ▸ by
        simp [joinSlash, splitSlash_of_no_slash a (h a (by simp)).2]
    | cons b rest2 =>
      have hjoin : joinSlash (a :: b :: rest2) = a ++ '/' :: joinSlash (b :: rest2) := rfl
      rw [hjoin, splitSlash_append, splitSlash_of_no_slash a (h a (by simp)).2,
        ih (by simp) (fun t ht => h t (List.mem_cons_of_mem a ht))]
      rfl

theorem segsOf_ok (l : List Char) : ∀ t ∈ segsOf l, okSeg t := by
  intro t ht
  have hf := List.of_mem_filter ht
  have hm := List.mem_of_mem_filter ht
  have hf' : t ≠ [] ∧ t ≠ ['.'] := by simpa using hf
  exact ⟨hf'.1, splitSlash_no_slash l t hm, hf'.2⟩

theorem segsOf_slash_cons (l : List Char) : segsOf ('/' :: l) = segsOf l := by
  have h1 : splitSlash ('/' :: l) = [] :: splitSlash l := rfl
  rw [segsOf, h1]
  rw [List.filter_cons]
  simp [segsOf]

theorem segsOf_append (xs ys : List Char) :
    segsOf (xs ++ '/' :: ys) = segsOf xs ++ segsOf ys := by
  rw [segsOf, splitSlash_append, List.filter_append]
  rfl

theorem segsOf_joinSlash (segs : List (List Char)) (h : ∀ t ∈ segs, goodSeg t) :
    segsOf (joinSlash segs) = segs := by
  cases segs with
  | nil => rfl
  | cons a rest =>
    rw [segsOf, splitSlash_joinSlash (a :: rest) (by simp)
      (fun t ht => ⟨(h t ht).1, (h t ht).2.1⟩)]
    apply List.filter_eq_self.mpr
    intro t ht
    have := h t ht
    simp [this.1, this.2.2.1]

theorem cleanStack_append (r : Bool) (xs ys acc : List (List Char)) :
    cleanStack r (xs ++ ys) acc = cleanStack r ys (cleanStack r xs acc) :=
  List.foldl_append _ _ _ _

theorem cleanStack_no_dotdot (r : Bool) (segs : List (List Char))
    (h : ∀ t ∈ segs, t ≠ ['.', '.']) :
    ∀ acc, cleanStack r segs acc = segs.reverse ++ acc := by
  induction segs with
  | nil => intro acc; rfl
  | cons s rest ih =>
    intro acc
    have hs : s ≠ ['.', '.'] := h s (by simp)
    rw [cleanStack, List.foldl_cons]
    have hstep : cleanStep r acc s = s :: acc := by simp [cleanStep, hs]
    rw [hstep]
    rw [show List.foldl (cleanStep r) (s :: acc) rest = cleanStack r rest (s :: acc) from rfl]
    rw [ih (fun t ht => h t (List.mem_cons_of_mem s ht)) (s :: acc)]
    simp

theorem cleanStack_inv (r : Bool) (segs : List (List Char)) :
    ∀ acc, (∀ t ∈ segs, okSeg t) →
      (∀ t ∈ acc, okSeg t ∧ (r = true → t ≠ ['.', '.'])) →
      ∀ t ∈ cleanStack r segs acc, okSeg t ∧ (r = true → t ≠ ['.', '.']) := by
  induction segs with
  | nil => intro acc _ hacc; exact hacc
  | cons s rest ih =>
    intro acc hsegs hacc
    have hs := hsegs s (by simp)
    rw [cleanStack, List.foldl_cons]
    refine ih _ (fun t ht => hsegs t (List.mem_cons_of_mem s ht)) ?_
    by_cases hdd : s = ['.', '.']
    · subst hdd
      cases acc with
      | nil =>
        cases r with
        | true => intro t ht; simp [cleanStep] at ht
        | false =>
          intro t ht
          have ht' : t = ['.', '.'] := by simpa [cleanStep] using ht
          subst ht'
          exact ⟨⟨by simp, by decide, by decide⟩, fun h => nomatch h⟩
      | cons a as =>
        have ha := hacc a (by simp)
        by_cases haa : a = ['.', '.']
        · cases r with
          | true => exact absurd haa (ha.2 rfl)
          | false =>
            intro t ht
            have hstep : cleanStep false (a :: as) ['.', '.'] =
                ['.', '.'] :: a :: as := by simp [cleanStep, haa]
            rw [hstep] at ht
            rcases List.mem_cons.mp ht with rfl | ht'
            · exact ⟨⟨by simp, by decide, by decide⟩, fun h => nomatch h⟩
            · exact hacc t ht'
        · intro t ht
          have hstep : cleanStep r (a :: as) ['.', '.'] = as := by
            simp [cleanStep, haa]
          rw [hstep] at ht
          exact hacc t (List.mem_cons_of_mem a ht)
    · intro t ht
      have hstep : cleanStep r acc s = s :: acc := by simp [cleanStep, hdd]
      rw [hstep] at ht
      rcases List.mem_cons.mp ht with rfl | ht'
      · exact ⟨hs, fun _ => hdd⟩
      · exact hacc t ht'

theorem goClean_rooted (s : String) (l : List Char) (h : s.data = '/' :: l) :
    goClean s =
      String.mk ('/' :: joinSlash ((cleanStack true (segsOf s.data) []).reverse)) := by
  have hne : ¬ s.data = [] := by rw [h]; simp
  have hroot : (s.data.head? == some '/') = true := by rw [h]; rfl
  simp [goClean, hne, hroot]

theorem goClean_relative (s : String) (c : Char) (l : List Char) (h : s.data = c :: l)
    (hc : c ≠ '/') :
    goClean s =
      (if (cleanStack false (segsOf s.data) []).reverse = [] then "."
       else String.mk (joinSlash ((cleanStack false (segsOf s.data) []).reverse))) := by
  have hne : ¬ s.data = [] := by rw [h]; simp
  have hroot : (s.data.head? == some '/') = false := by
    rw [h]
    simp [hc]
  simp [goClean, hne, hroot]

theorem join_slash_root (p : String) :
    ∃ segs : List (List Char), (∀ t ∈ segs, goodSeg t) ∧
      (goJoin2 "/" p).data = '/' :: joinSlash segs := by
  by_cases hp : p = ""
  · subst hp
    exact ⟨[], by simp, by decide⟩
  · have hjoin : goJoin2 "/" p = goClean ("/" ++ "/" ++ p) := by
      rw [goJoin2, if_neg (by decide : ¬ ("/" : String) = ""), if_neg hp]
    have hdata : ("/" ++ "/" ++ p).data = '/' :: '/' :: p.data := rfl
    have hclean := goClean_rooted ("/" ++ "/" ++ p) ('/' :: p.data) hdata
    refine ⟨(cleanStack true (segsOf ("/" ++ "/" ++ p).data) []).reverse, ?_, ?_⟩
    · intro t ht
      have hmem := List.mem_reverse.mp ht
      have hinv := cleanStack_inv true (segsOf ("/" ++ "/" ++ p).data) []
        (segsOf_ok _) (by intro u hu; cases hu) t hmem
      exact ⟨hinv.1.1, hinv.1.2.1, hinv.1.2.2, hinv.2 rfl⟩
    · rw [hjoin, hclean]

theorem join_clean_under (root rest : String) (segs : List (List Char))
    (hroot : goClean root = root) (hdot : root ≠ ".")
    (hsegs : ∀ t ∈ segs, goodSeg t)
    (hrest : rest.data = '/' :: joinSlash segs) :
    liesUnder root (goJoin2 root rest) := by
  have hrootne : root ≠ "" := by
    intro h
    rw [h] at hroot
    exact absurd hroot (by decide)
  have hrestne : rest ≠ "" := by
    intro h
    rw [h] at hrest
    exact List.noConfusion hrest
  have hjoin : goJoin2 root rest = goClean (root ++ "/" ++ rest) := by
    rw [goJoin2, if_neg hrootne, if_neg hrestne]
  have hdata : (root ++ "/" ++ rest).data = root.data ++ '/' :: rest.data := by
    show (root.data ++ ['/']) ++ rest.data = root.data ++ '/' :: rest.data
    simp
  have hrd : root.data ≠ [] := by
    intro h
    exact hrootne (by
      have : root = "" := by
        cases root with
        | mk d => cases h; rfl
      exact this)
  obtain ⟨c0, l0, hc0⟩ : ∃ c l, root.data = c :: l := by
    cases hl : root.data with
    | nil => exact absurd hl hrd
    | cons c l => exact ⟨c, l, rfl⟩
  have hsegsnd : ∀ t ∈ segs, t ≠ (['.', '.'] : List Char) := fun t ht => (hsegs t ht).2.2.2
  have hsegsrest : segsOf rest.data = segs := by
    rw [hrest, segsOf_slash_cons, segsOf_joinSlash segs hsegs]
  by_cases hcr : c0 = '/'
  · -- the cache root is an absolute path
    subst hcr
    obtain ⟨stackR, hstackR⟩ :
        ∃ S, (cleanStack true (segsOf root.data) []).reverse = S := ⟨_, rfl⟩
    have hcleanR := goClean_rooted root l0 hc0
    rw [hroot, hstackR] at hcleanR
    have hrootdata : root.data = '/' :: joinSlash stackR :=
      congrArg String.data hcleanR
    have hstackOk : ∀ t ∈ stackR, okSeg t := by
      intro t ht
      rw [← hstackR] at ht
      exact (cleanStack_inv true (segsOf root.data) [] (segsOf_ok _)
        (by intro u hu; cases hu) t (List.mem_reverse.mp ht)).1
    have hddata : (root ++ "/" ++ rest).data =
        '/' :: (joinSlash stackR ++ '/' :: rest.data) := by
      rw [hdata, hrootdata]
      simp
    have hcleanD := goClean_rooted (root ++ "/" ++ rest) _ hddata
    have hsplit : segsOf (root ++ "/" ++ rest).data = segsOf root.data ++ segs := by
      rw [hdata, segsOf_append, hsegsrest]
    have hstackD : (cleanStack true (segsOf (root ++ "/" ++ rest).data) []).reverse =
        stackR ++ segs := by
      rw [hsplit, cleanStack_append, cleanStack_no_dotdot true segs hsegsnd]
      simp [hstackR]
    rw [hjoin, hcleanD, hstackD]
    cases hseg0 : segs with
    | nil =>
      left
      rw [List.append_nil]
      exact hcleanR.symm
    | cons s0 segs0 =>
      right
      refine ⟨s0 :: segs0, by simp, by rw [← hseg0]; exact hsegs, ?_⟩
      show '/' :: joinSlash (stackR ++ (s0 :: segs0)) =
        underData root ++ joinSlash (s0 :: segs0)
      cases hstk2 : stackR with
      | nil =>
        have hslash : root = "/" := by
          rw [hcleanR, hstk2]
          rfl
        rw [underData, if_pos hslash]
        simp [joinSlash]
      | cons r0 rs =>
        have hr0 : okSeg r0 := hstackOk r0 (by rw [hstk2]; simp)
        have hjs : joinSlash (r0 :: rs) ≠ [] := joinSlash_ne_nil r0 rs hr0.1
        have hne2 : root ≠ "/" := by
          intro h
          have hd : root.data = ['/'] := by rw [h]
          rw [hrootdata, hstk2] at hd
          have hj : joinSlash (r0 :: rs) = [] := by
            have h2 := congrArg List.tail hd
            simpa using h2
          exact hjs hj
        rw [underData, if_neg hne2, hrootdata, hstk2]
        rw [joinSlash_append (r0 :: rs) (s0 :: segs0) (by simp) (by simp)]
        simp
  · -- the cache root is a relative path
    obtain ⟨stackF, hstackF⟩ :
        ∃ S, (cleanStack false (segsOf root.data) []).reverse = S := ⟨_, rfl⟩
    have hcleanR := goClean_relative root c0 l0 hc0 hcr
    rw [hroot, hstackF] at hcleanR
    by_cases hstk : stackF = []
    · rw [if_pos hstk] at hcleanR
      exact absurd hcleanR hdot
    · rw [if_neg hstk] at hcleanR
      have hrootdata : root.data = joinSlash stackF :=
        congrArg String.data hcleanR
      have hddata : (root ++ "/" ++ rest).data = c0 :: (l0 ++ '/' :: rest.data) := by
        rw [hdata, hc0]
        simp
      have hcleanD := goClean_relative (root ++ "/" ++ rest) c0 _ hddata hcr
      have hsplit : segsOf (root ++ "/" ++ rest).data = segsOf root.data ++ segs := by
        rw [hdata, segsOf_append, hsegsrest]
      have hstackD : (cleanStack false (segsOf (root ++ "/" ++ rest).data) []).reverse =
          stackF ++ segs := by
        rw [hsplit, cleanStack_append, cleanStack_no_dotdot false segs hsegsnd]
        simp [hstackF]
      have hne0 : stackF ++ segs ≠ [] := by
        intro h
        exact hstk (List.append_eq_nil.mp h).1
      rw [hjoin, hcleanD, hstackD, if_neg hne0]
      cases hseg0 : segs with
      | nil =>
        left
        rw [List.append_nil]
        exact hcleanR.symm
      | cons s0 segs0 =>
        right
        refine ⟨s0 :: segs0, by simp, by rw [← hseg0]; exact hsegs, ?_⟩
        have hne2 : root ≠ "/" := by
          intro h
          have hd : root.data = ['/'] := by rw [h]
          rw [hc0] at hd
          have h1 : c0 = '/' := by
            have h2 := congrArg List.head? hd
            simpa using h2
          exact hcr h1
        show joinSlash (stackF ++ (s0 :: segs0)) =
          underData root ++ joinSlash (s0 :: segs0)
        rw [underData, if_neg hne2, hrootdata]
        rw [joinSlash_append stackF (s0 :: segs0) hstk (by simp)]
        simp

/-- Claim C9: the concrete sanitization
`join("/test", join("/", "../../asdf")) = "/test/asdf"` holds, and for every
cleaned root directory (other than `.`) and every user-supplied path —
including paths with `..` segments — the on-disk path computed by
`absoluteInRoot` lies under the root: it is the root itself or the root
followed by a separator and a normalized relative path with no `..`
segment. -/
theorem claim9_path_sanitization :
    goJoin2 "/test" (goJoin2 "/" "../../asdf") = "/test/asdf" ∧
    ∀ (root p : String), goClean root = root → root ≠ "." →
      liesUnder root (absoluteInRoot root p) := by
  refine ⟨by decide, ?_⟩
  intro root p hroot hdot
  obtain ⟨segs, hsegs, hdata⟩ := join_slash_root p
  exact join_clean_under root (goJoin2 "/" p) segs hroot hdot hsegs hdata

/-- Claim C9 witness: the sanitized path of the test vector lies under the
root `/test`. -/
theorem claim9_witness :
    goClean "/test" = "/test" ∧ ("/test" : String) ≠ "." ∧
    liesUnder "/test" (absoluteInRoot "/test" "../../asdf") :=
  ⟨by decide, by decide,
    claim9_path_sanitization.2 "/test" "../../asdf" (by decide) (by decide)⟩

end Cachistry
